import Mathlib

/-!
Shallow embedding of the `lox-rs` lexer crate (`src/lox-lexer/src/`):
`span.rs` (the `Span` accumulator), `lexeme.rs` (the `Lexeme` tagged union),
`token.rs` (`Token`), and `lexer.rs` (the `Context` scanning engine).

Embedding conventions:
 - the `Peekable<Chars>` cursor is a `List Char` (peek = head, next = uncons);
 - Rust `String` buffers are `List Char`, converted to Lean `String` at the
   point a token payload is built;
 - the `Number` payload keeps the scanned numeral text: the Rust code parses
   the buffer with `f64::from_str`, which always succeeds on the grammar
   `digit+ ('.' digit+)?` the scanner produces, so the text determines the
   float value;
 - the Rust panics (`read_string().unwrap()`, `read_number(..).unwrap()`, and
   the `panic!("Unknown char ..")` dispatch arm) are modelled as `Except`
   errors of type `LexError`;
 - `Line`/`Column` newtypes are flattened to `Nat` fields of `Span`; the
   `usize` subtraction in `is_n_chars` becomes truncated `Nat` subtraction.
-/

namespace LoxRs

/-- Span from `span.rs`: start/end line (1-based) and column (0-based). -/
structure Span where
  startLine : Nat
  startCol : Nat
  endLine : Nat
  endCol : Nat
deriving Repr, DecidableEq, Inhabited

/-- Default span from `span.rs` (`Span::default`): line 1, column 0. -/
def Span.default : Span := ⟨1, 0, 1, 0⟩

/-- Predicate `Span::is_one_line`. -/
def Span.isOneLine (sp : Span) : Bool := sp.startLine == sp.endLine

/-- Predicate `Span::is_n_chars`: one line and `end_col - start_col == n`. -/
def Span.isNChars (sp : Span) (n : Nat) : Bool :=
  sp.isOneLine && (sp.endCol - sp.startCol == n)

/-- Predicate `Span::is_two_chars`. -/
def Span.isTwoChars (sp : Span) : Bool := sp.isNChars 2

/-- Predicate `Span::is_one_char`. -/
def Span.isOneChar (sp : Span) : Bool := sp.isNChars 1

/-- Predicate `Span::is_multi_line`. -/
def Span.isMultiLine (sp : Span) : Bool := !sp.isOneLine

/-- Operation `Span::incr_col_n`. -/
def Span.incrColN (sp : Span) (n : Nat) : Span := { sp with endCol := sp.endCol + n }

/-- Operation `Span::incr_col`. -/
def Span.incrCol (sp : Span) : Span := sp.incrColN 1

/-- Operation `Span::incr_line`: bump the end line and reset the end column. -/
def Span.incrLine (sp : Span) : Span := { sp with endLine := sp.endLine + 1, endCol := 0 }

/-- Operation `Span::complete`: returns the completed span and the re-armed
accumulator whose start is anchored at the old end. -/
def Span.complete (sp : Span) : Span × Span :=
  (sp, ⟨sp.endLine, sp.endCol, sp.endLine, sp.endCol⟩)

/-- The composite effect on the span of consuming one character: `incr_col`
followed by `incr_line` when the character is a newline.  Every place in
`lexer.rs` that consumes a character (`update_span`, `read_line`,
`read_string`) performs exactly this pair of steps. -/
def Span.advance (sp : Span) (c : Char) : Span :=
  let sp1 := sp.incrCol
  if c = '\n' then sp1.incrLine else sp1

/-- Lexeme from `lexeme.rs`.  Rust keyword-named constructors get a `kw`
prefix because they collide with Lean keywords. -/
inductive Lexeme where
  | leftParen
  | rightParen
  | leftBrace
  | rightBrace
  | comma
  | dot
  | minus
  | plus
  | semicolon
  | slash
  | star
  | bang
  | bangEqual
  | equal
  | equalEqual
  | greater
  | greaterEqual
  | less
  | lessEqual
  | identifier (s : String)
  | string (s : String)
  | number (s : String)
  | comment (s : String)
  | kwAnd
  | kwClass
  | kwElse
  | kwFalse
  | kwFun
  | kwFor
  | kwIf
  | kwNil
  | kwOr
  | kwPrint
  | kwReturn
  | kwSuper
  | kwThis
  | kwTrue
  | kwVar
  | kwWhile
  | whitespace (s : String)
  | newLine
  | eof
deriving Repr, DecidableEq, Inhabited

/-- Token from `token.rs`: a lexeme paired with the span it occupies. -/
structure Token where
  lexeme : Lexeme
  span : Span
deriving Repr, DecidableEq, Inhabited

/-- Failure kinds: the conditions on which `lexer.rs` panics
(`read_string().unwrap()`, `read_number(..).unwrap()`, the unknown-character
dispatch arm), surfaced as error values per the spec's §7. -/
inductive LexError where
  | unterminatedString
  | malformedNumber
  | unknownChar (c : Char)
deriving Repr, DecidableEq

/-- Predicate `Context::is_whitespace`: space, tab or carriage return. -/
def isWhitespace (c : Char) : Bool := c = ' ' || c = '\t' || c = '\r'

/-- Predicate `Context::is_digit`. -/
def isDigit (c : Char) : Bool := '0' ≤ c && c ≤ '9'

/-- Predicate `Context::is_alpha`: ASCII letter or underscore. -/
def isAlpha (c : Char) : Bool :=
  ('a' ≤ c && c ≤ 'z') || ('A' ≤ c && c ≤ 'Z') || c = '_'

/-- Predicate `Context::is_alphanum`. -/
def isAlphanum (c : Char) : Bool := isAlpha c || isDigit c

/-- Static `KEYWORDS` table from `lexer.rs`, in its source order
(lexicographically sorted). -/
def KEYWORDS : Array (String × Lexeme) := #[
  ("and", .kwAnd),
  ("class", .kwClass),
  ("else", .kwElse),
  ("false", .kwFalse),
  ("for", .kwFor),
  ("fun", .kwFun),
  ("if", .kwIf),
  ("nil", .kwNil),
  ("or", .kwOr),
  ("print", .kwPrint),
  ("return", .kwReturn),
  ("super", .kwSuper),
  ("this", .kwThis),
  ("true", .kwTrue),
  ("var", .kwVar),
  ("while", .kwWhile)]

/-- Lexicographic order on character lists, modelling the `Ord` instance of
`&str` used by the keyword binary search (byte order and character order
agree on the ASCII keyword table). -/
def strLt : List Char → List Char → Bool
  | [], [] => false
  | [], _ :: _ => true
  | _ :: _, [] => false
  | c :: a, d :: b => if c < d then true else if d < c then false else strLt a b

/-- Binary search over `KEYWORDS` by key, modelling
`slice::binary_search_by_key`: exact-match search over the sorted table,
returning the index on a hit.  The first `Nat` argument is structural fuel:
every step shrinks the bracket `hi - lo` by at least one, so starting the
fuel at `KEYWORDS.size` can never cut the search short. -/
def binarySearchGo (key : String) : Nat → Nat → Nat → Option Nat
  | 0, _, _ => none
  | fuel + 1, lo, hi =>
    if lo < hi then
      let mid := (lo + hi) / 2
      let k := (KEYWORDS[mid]!).1
      if strLt k.data key.data then binarySearchGo key fuel (mid + 1) hi
      else if strLt key.data k.data then binarySearchGo key fuel lo mid
      else some mid
    else none

/-- The `KEYWORDS.binary_search_by_key` call in `mk_identifier_or_keyword`. -/
def keywordSearch (key : String) : Option Nat :=
  binarySearchGo key KEYWORDS.size 0 KEYWORDS.size

/-- Scanning-engine state from `lexer.rs` (`struct Context`). -/
structure Context where
  source : List Char
  span : Span
  eofGenerated : Bool
deriving Repr, DecidableEq

/-- Constructor `Context::new`. -/
def Context.new (s : String) : Context := ⟨s.data, Span.default, false⟩

/-- Operation `Context::update_span`: `incr_col`, plus `incr_line` when the
consumed character is a newline. -/
def Context.updateSpan (ctx : Context) (c : Char) : Context :=
  { ctx with span := ctx.span.advance c }

/-- Operation `Context::read_char`: consume one character and update the span. -/
def Context.readChar (ctx : Context) : Option Char × Context :=
  match ctx.source with
  | [] => (none, ctx)
  | c :: rest => (some c, Context.updateSpan { ctx with source := rest } c)

/-- Operation `Context::read_char_if`: consume the next character only when it
equals `c`. -/
def Context.readCharIf (ctx : Context) (c : Char) : Bool × Context :=
  match ctx.source with
  | c1 :: _ => if c = c1 then (true, (ctx.readChar).2) else (false, ctx)
  | [] => (false, ctx)

/-- Loop body of `Context::read_line`: push characters (advancing the span)
until a newline has been pushed or the source is exhausted. -/
def readLineAux : List Char → Span → List Char → List Char × Span × List Char
  | [], sp, buf => (buf, sp, [])
  | c :: rest, sp, buf =>
    if c = '\n' then (buf ++ [c], (sp.incrCol).incrLine, rest)
    else readLineAux rest sp.incrCol (buf ++ [c])

/-- Loop body of `Context::read_ws`: greedily consume whitespace characters. -/
def readWsAux : List Char → Span → List Char → List Char × Span × List Char
  | [], sp, buf => (buf, sp, [])
  | c :: rest, sp, buf =>
    if isWhitespace c then readWsAux rest (sp.advance c) (buf ++ [c])
    else (buf, sp, c :: rest)

/-- Loop body of `Context::read_string`: consume characters up to and
including a closing double quote; `none` when the source is exhausted first. -/
def readStringAux : List Char → Span → List Char → Option (List Char) × Span × List Char
  | [], sp, _ => (none, sp, [])
  | c :: rest, sp, buf =>
    let sp1 := sp.advance c
    if c = '"' then (some buf, sp1, rest)
    else readStringAux rest sp1 (buf ++ [c])

/-- Digit-consuming loops of `Context::read_number`. -/
def readDigitsAux : List Char → Span → List Char → List Char × Span × List Char
  | [], sp, buf => (buf, sp, [])
  | c :: rest, sp, buf =>
    if isDigit c then readDigitsAux rest (sp.advance c) (buf ++ [c])
    else (buf, sp, c :: rest)

/-- Body of `Context::read_number`: leading digits, then optionally a dot
followed by at least one digit; a consumed dot with no following digit is the
`None` (malformed) outcome. -/
def readNumberAux (first : Char) (src : List Char) (sp : Span) :
    Option (List Char) × Span × List Char :=
  let r1 := readDigitsAux src sp [first]
  match r1.2.2 with
  | c2 :: rest =>
    if c2 = '.' then
      let sp2 := r1.2.1.advance '.'
      let buf2 := r1.1 ++ ['.']
      match rest with
      | d :: _ =>
        if isDigit d then
          let r3 := readDigitsAux rest sp2 buf2
          (some r3.1, r3.2.1, r3.2.2)
        else (none, sp2, rest)
      | [] => (none, sp2, [])
    else (some r1.1, r1.2.1, r1.2.2)
  | [] => (some r1.1, r1.2.1, r1.2.2)

/-- Loop body of `Context::read_identifier`: greedily consume alphanumerics. -/
def readIdentifierAux : List Char → Span → List Char → List Char × Span × List Char
  | [], sp, buf => (buf, sp, [])
  | c :: rest, sp, buf =>
    if isAlphanum c then readIdentifierAux rest (sp.advance c) (buf ++ [c])
    else (buf, sp, c :: rest)

/-- Constructor `Context::mk_left_parenthesis`. -/
def Context.mkLeftParenthesis (ctx : Context) : Option Token × Context :=
  let r := ctx.span.complete
  (some ⟨.leftParen, r.1⟩, { ctx with span := r.2 })

/-- Constructor `Context::mk_right_parenthesis`. -/
def Context.mkRightParenthesis (ctx : Context) : Option Token × Context :=
  let r := ctx.span.complete
  (some ⟨.rightParen, r.1⟩, { ctx with span := r.2 })

/-- Constructor `Context::mk_left_brace`. -/
def Context.mkLeftBrace (ctx : Context) : Option Token × Context :=
  let r := ctx.span.complete
  (some ⟨.leftBrace, r.1⟩, { ctx with span := r.2 })

/-- Constructor `Context::mk_right_brace`. -/
def Context.mkRightBrace (ctx : Context) : Option Token × Context :=
  let r := ctx.span.complete
  (some ⟨.rightBrace, r.1⟩, { ctx with span := r.2 })

/-- Constructor `Context::mk_comma`. -/
def Context.mkComma (ctx : Context) : Option Token × Context :=
  let r := ctx.span.complete
  (some ⟨.comma, r.1⟩, { ctx with span := r.2 })

/-- Constructor `Context::mk_dot`. -/
def Context.mkDot (ctx : Context) : Option Token × Context :=
  let r := ctx.span.complete
  (some ⟨.dot, r.1⟩, { ctx with span := r.2 })

/-- Constructor `Context::mk_plus`. -/
def Context.mkPlus (ctx : Context) : Option Token × Context :=
  let r := ctx.span.complete
  (some ⟨.plus, r.1⟩, { ctx with span := r.2 })

/-- Constructor `Context::mk_minus`. -/
def Context.mkMinus (ctx : Context) : Option Token × Context :=
  let r := ctx.span.complete
  (some ⟨.minus, r.1⟩, { ctx with span := r.2 })

/-- Constructor `Context::mk_semicolon`. -/
def Context.mkSemicolon (ctx : Context) : Option Token × Context :=
  let r := ctx.span.complete
  (some ⟨.semicolon, r.1⟩, { ctx with span := r.2 })

/-- Constructor `Context::mk_star`. -/
def Context.mkStar (ctx : Context) : Option Token × Context :=
  let r := ctx.span.complete
  (some ⟨.star, r.1⟩, { ctx with span := r.2 })

/-- Constructor `Context::mk_bang`. -/
def Context.mkBang (ctx : Context) : Option Token × Context :=
  let r := ctx.span.complete
  (some ⟨.bang, r.1⟩, { ctx with span := r.2 })

/-- Constructor `Context::mk_bang_equal`. -/
def Context.mkBangEqual (ctx : Context) : Option Token × Context :=
  let r := ctx.span.complete
  (some ⟨.bangEqual, r.1⟩, { ctx with span := r.2 })

/-- Constructor `Context::mk_bang_or_bang_equal`: peek for `=`. -/
def Context.mkBangOrBangEqual (ctx : Context) : Option Token × Context :=
  match ctx.readCharIf '=' with
  | (true, ctx1) => ctx1.mkBangEqual
  | (false, ctx1) => ctx1.mkBang

/-- Constructor `Context::mk_equal`. -/
def Context.mkEqual (ctx : Context) : Option Token × Context :=
  let r := ctx.span.complete
  (some ⟨.equal, r.1⟩, { ctx with span := r.2 })

/-- Constructor `Context::mk_equal_equal`. -/
def Context.mkEqualEqual (ctx : Context) : Option Token × Context :=
  let r := ctx.span.complete
  (some ⟨.equalEqual, r.1⟩, { ctx with span := r.2 })

/-- Constructor `Context::mk_equal_or_equal_equal`: peek for `=`. -/
def Context.mkEqualOrEqualEqual (ctx : Context) : Option Token × Context :=
  match ctx.readCharIf '=' with
  | (true, ctx1) => ctx1.mkEqualEqual
  | (false, ctx1) => ctx1.mkEqual

/-- Constructor `Context::mk_greater`. -/
def Context.mkGreater (ctx : Context) : Option Token × Context :=
  let r := ctx.span.complete
  (some ⟨.greater, r.1⟩, { ctx with span := r.2 })

/-- Constructor `Context::mk_greater_equal`. -/
def Context.mkGreaterEqual (ctx : Context) : Option Token × Context :=
  let r := ctx.span.complete
  (some ⟨.greaterEqual, r.1⟩, { ctx with span := r.2 })

/-- Constructor `Context::mk_greater_or_greater_equal`: peek for `=`. -/
def Context.mkGreaterOrGreaterEqual (ctx : Context) : Option Token × Context :=
  match ctx.readCharIf '=' with
  | (true, ctx1) => ctx1.mkGreaterEqual
  | (false, ctx1) => ctx1.mkGreater

/-- Constructor `Context::mk_less`. -/
def Context.mkLess (ctx : Context) : Option Token × Context :=
  let r := ctx.span.complete
  (some ⟨.less, r.1⟩, { ctx with span := r.2 })

/-- Constructor `Context::mk_less_equal`. -/
def Context.mkLessEqual (ctx : Context) : Option Token × Context :=
  let r := ctx.span.complete
  (some ⟨.lessEqual, r.1⟩, { ctx with span := r.2 })

/-- Constructor `Context::mk_less_or_less_equal`: peek for `=`. -/
def Context.mkLessOrLessEqual (ctx : Context) : Option Token × Context :=
  match ctx.readCharIf '=' with
  | (true, ctx1) => ctx1.mkLessEqual
  | (false, ctx1) => ctx1.mkLess

/-- Constructor `Context::mk_slash`. -/
def Context.mkSlash (ctx : Context) : Option Token × Context :=
  let r := ctx.span.complete
  (some ⟨.slash, r.1⟩, { ctx with span := r.2 })

/-- Constructor `Context::mk_comment`: consume the rest of the line. -/
def Context.mkComment (ctx : Context) : Option Token × Context :=
  let r := readLineAux ctx.source ctx.span []
  let c := r.2.1.complete
  (some ⟨.comment ⟨r.1⟩, c.1⟩, ⟨r.2.2, c.2, ctx.eofGenerated⟩)

/-- Constructor `Context::mk_slash_or_comment`: peek for a second `/`. -/
def Context.mkSlashOrComment (ctx : Context) : Option Token × Context :=
  match ctx.readCharIf '/' with
  | (true, ctx1) => ctx1.mkComment
  | (false, ctx1) => ctx1.mkSlash

/-- Constructor `Context::mk_newline`. -/
def Context.mkNewline (ctx : Context) : Option Token × Context :=
  let r := ctx.span.complete
  (some ⟨.newLine, r.1⟩, { ctx with span := r.2 })

/-- Constructor `Context::mk_whitespace`: coalesce the whitespace run. -/
def Context.mkWhitespace (ctx : Context) (firstWs : Char) : Option Token × Context :=
  let r := readWsAux ctx.source ctx.span [firstWs]
  let c := r.2.1.complete
  (some ⟨.whitespace ⟨r.1⟩, c.1⟩, ⟨r.2.2, c.2, ctx.eofGenerated⟩)

/-- Constructor `Context::mk_string`: the `read_string().unwrap()` panic on an
unterminated literal becomes the `unterminatedString` error. -/
def Context.mkString (ctx : Context) : Except LexError (Option Token × Context) :=
  match readStringAux ctx.source ctx.span [] with
  | (some str, sp, src) =>
    let c := sp.complete
    .ok (some ⟨.string ⟨str⟩, c.1⟩, ⟨src, c.2, ctx.eofGenerated⟩)
  | (none, _, _) => .error .unterminatedString

/-- Constructor `Context::mk_number`: the `read_number(..).unwrap()` panic on
a trailing dot becomes the `malformedNumber` error. -/
def Context.mkNumber (ctx : Context) (firstDigit : Char) :
    Except LexError (Option Token × Context) :=
  match readNumberAux firstDigit ctx.source ctx.span with
  | (some buf, sp, src) =>
    let c := sp.complete
    .ok (some ⟨.number ⟨buf⟩, c.1⟩, ⟨src, c.2, ctx.eofGenerated⟩)
  | (none, _, _) => .error .malformedNumber

/-- Keyword resolution in `mk_identifier_or_keyword`: the `match` on the
binary-search result — a hit yields the keyword's lexeme, a miss an
`Identifier` carrying the scanned text. -/
def keywordLexeme (key : String) : Lexeme :=
  match keywordSearch key with
  | some idx => (KEYWORDS[idx]!).2
  | none => .identifier key

/-- Constructor `Context::mk_identifier_or_keyword`: maximal munch, then the
binary search against `KEYWORDS`. -/
def Context.mkIdentifierOrKeyword (ctx : Context) (firstChar : Char) :
    Option Token × Context :=
  let r := readIdentifierAux ctx.source ctx.span [firstChar]
  let c := r.2.1.complete
  let key : String := ⟨r.1⟩
  (some ⟨keywordLexeme key, c.1⟩, ⟨r.2.2, c.2, ctx.eofGenerated⟩)

/-- Constructor `Context::mk_eof_token`: set `eof_generated` and emit the
zero-width `Eof` token. -/
def Context.mkEofToken (ctx : Context) : Option Token × Context :=
  let r := ctx.span.complete
  (some ⟨.eof, r.1⟩, ⟨ctx.source, r.2, true⟩)

/-- Dispatch `Context::read_token_with_char`: the `match` over the consumed
character, in source order; the final `panic!` arm becomes `unknownChar`. -/
def Context.readTokenWithChar (ctx : Context) (c : Char) :
    Except LexError (Option Token × Context) :=
  if c = '(' then .ok ctx.mkLeftParenthesis
  else if c = ')' then .ok ctx.mkRightParenthesis
  else if c = '\x7b' then .ok ctx.mkLeftBrace
  else if c = '\x7d' then .ok ctx.mkRightBrace
  else if c = ',' then .ok ctx.mkComma
  else if c = '.' then .ok ctx.mkDot
  else if c = '+' then .ok ctx.mkPlus
  else if c = '-' then .ok ctx.mkMinus
  else if c = ';' then .ok ctx.mkSemicolon
  else if c = '*' then .ok ctx.mkStar
  else if c = '!' then .ok ctx.mkBangOrBangEqual
  else if c = '=' then .ok ctx.mkEqualOrEqualEqual
  else if c = '>' then .ok ctx.mkGreaterOrGreaterEqual
  else if c = '<' then .ok ctx.mkLessOrLessEqual
  else if c = '/' then .ok ctx.mkSlashOrComment
  else if c = '\n' then .ok ctx.mkNewline
  else if c = '"' then ctx.mkString
  else if isWhitespace c then .ok (ctx.mkWhitespace c)
  else if isDigit c then ctx.mkNumber c
  else if isAlpha c then .ok (ctx.mkIdentifierOrKeyword c)
  else .error (.unknownChar c)

/-- Operation `Context::read`: `None` once `eof_generated`; otherwise consume
a character and dispatch, or emit the one `Eof` token at exhaustion. -/
def Context.read (ctx : Context) : Except LexError (Option Token × Context) :=
  if ctx.eofGenerated then .ok (none, ctx)
  else
    match ctx.readChar with
    | (some c, ctx1) => ctx1.readTokenWithChar c
    | (none, ctx1) => .ok ctx1.mkEofToken

/-- Fuel-indexed driver of the public iteration surface (§4.4 of the spec):
call `read` repeatedly, collecting tokens until `read` yields nothing.  The
fuel only bounds the recursion depth; `scanFuel_stable` below shows the value
used by `scan` is always sufficient. -/
def scanFuel : Nat → Context → Except LexError (List Token)
  | 0, _ => .ok []
  | fuel + 1, ctx =>
    match ctx.read with
    | .error e => .error e
    | .ok (none, _) => .ok []
    | .ok (some t, ctx1) =>
      match scanFuel fuel ctx1 with
      | .error e => .error e
      | .ok ts => .ok (t :: ts)

/-- Scan a whole source string into its token sequence (or the first
failure).  Each produced non-`Eof` token consumes at least one character, so
`length + 2` calls to `read` always reach and pass the `Eof` token. -/
def scan (s : String) : Except LexError (List Token) :=
  scanFuel (s.data.length + 2) (Context.new s)

/-- Position in the source: a (line, column) pair, ordered lexicographically. -/
abbrev Pos := Nat × Nat

/-- Effect of consuming one character on a position, matching the
`incr_col`/`incr_line` bookkeeping of `update_span`. -/
def advancePos (p : Pos) (c : Char) : Pos :=
  if c = '\n' then (p.1 + 1, 0) else (p.1, p.2 + 1)

/-- Span with the given start and end positions. -/
def mkSpan (a b : Pos) : Span := ⟨a.1, a.2, b.1, b.2⟩

/-- Start position of a span. -/
def Span.startPos (sp : Span) : Pos := (sp.startLine, sp.startCol)

/-- End position of a span. -/
def Span.endPos (sp : Span) : Pos := (sp.endLine, sp.endCol)

/-- Strict document order on positions. -/
def posLt (p q : Pos) : Prop := p.1 < q.1 ∨ (p.1 = q.1 ∧ p.2 < q.2)

/-- Reflexive document order on positions. -/
def posLe (p q : Pos) : Prop := posLt p q ∨ p = q

instance (p q : Pos) : Decidable (posLt p q) := by
  unfold posLt
  infer_instance

instance (p q : Pos) : Decidable (posLe p q) := by
  unfold posLe
  infer_instance

/-- Armed accumulator: a span whose start equals its end, the state the
accumulator is (re)set to by `Span::complete` and `Span::default`. -/
def Armed (sp : Span) : Prop := sp = mkSpan sp.endPos sp.endPos

/-- Characters of `src` (walked from position `p`) whose position lies in the
half-open position interval from `a` to `b`. -/
def coveredAux (a b : Pos) : List Char → Pos → List Char
  | [], _ => []
  | c :: rest, p =>
    (if posLe a p ∧ posLt p b then [c] else []) ++ coveredAux a b rest (advancePos p c)

/-- Source text covered by a span, by column range per line, starting the
walk at the origin position (line 1, column 0). -/
def covered (src : List Char) (sp : Span) : List Char :=
  coveredAux sp.startPos sp.endPos src (1, 0)

/-- Successive spans tile from `p`: each token's span starts where the
previous one ended. -/
def spansChainB : Pos → List Token → Bool
  | _, [] => true
  | p, t :: ts => (t.span.startPos == p) && spansChainB t.span.endPos ts

/-- Token list `ts` tiles the remaining source `src` from position `p`:
every non-`Eof` token owns a nonempty consumed segment whose position walk
matches its span, and the list ends with the single zero-width `Eof` token
at the final position. -/
inductive TokChain : Pos → List Char → List Token → Prop where
  | eofTok (p : Pos) : TokChain p [] [⟨.eof, mkSpan p p⟩]
  | consTok (p : Pos) (seg src : List Char) (t : Token) (ts : List Token) :
      t.lexeme ≠ .eof → seg ≠ [] →
      t.span = mkSpan p (seg.foldl advancePos p) →
      TokChain (seg.foldl advancePos p) src ts →
      TokChain p (seg ++ src) (t :: ts)

/-! Basic span lemmas. -/

theorem Span.advance_mkSpan (p q : Pos) (c : Char) :
    (mkSpan p q).advance c = mkSpan p (advancePos q c) := by
  by_cases h : c = '\n' <;>
    simp [Span.advance, Span.incrCol, Span.incrColN, Span.incrLine, advancePos, mkSpan, h]

theorem Span.foldl_advance_mkSpan (l : List Char) (p q : Pos) :
    l.foldl Span.advance (mkSpan p q) = mkSpan p (l.foldl advancePos q) := by
  induction l generalizing q with
  | nil => rfl
  | cons c rest ih => simp [List.foldl_cons, Span.advance_mkSpan, ih]

theorem mkSpan_startPos (a b : Pos) : (mkSpan a b).startPos = a := rfl

theorem mkSpan_endPos (a b : Pos) : (mkSpan a b).endPos = b := rfl

theorem Span.complete_mkSpan (p q : Pos) :
    (mkSpan p q).complete = (mkSpan p q, mkSpan q q) := rfl

/-! Order lemmas on positions. -/

theorem posLt_advancePos (p : Pos) (c : Char) : posLt p (advancePos p c) := by
  by_cases h : c = '\n' <;> simp [advancePos, posLt, h]

theorem posLt_irrefl (p : Pos) : ¬ posLt p p := by
  simp [posLt]

theorem posLt_trans {p q r : Pos} (h1 : posLt p q) (h2 : posLt q r) : posLt p r := by
  rcases h1 with h1 | ⟨e1, h1⟩ <;> rcases h2 with h2 | ⟨e2, h2⟩ <;>
    simp [posLt] <;> omega

theorem posLe_refl (p : Pos) : posLe p p := .inr rfl

theorem posLt_of_posLe_of_posLt {p q r : Pos} (h1 : posLe p q) (h2 : posLt q r) :
    posLt p r := by
  rcases h1 with h1 | rfl
  · exact posLt_trans h1 h2
  · exact h2

theorem posLt_of_posLt_of_posLe {p q r : Pos} (h1 : posLt p q) (h2 : posLe q r) :
    posLt p r := by
  rcases h2 with h2 | rfl
  · exact posLt_trans h1 h2
  · exact h1

theorem posLe_trans {p q r : Pos} (h1 : posLe p q) (h2 : posLe q r) : posLe p r := by
  rcases h1 with h1 | rfl
  · exact .inl (posLt_of_posLt_of_posLe h1 h2)
  · exact h2

theorem posLe_advancePos (p : Pos) (c : Char) : posLe p (advancePos p c) :=
  .inl (posLt_advancePos p c)

theorem posLe_foldl_advancePos (l : List Char) (p : Pos) :
    posLe p (l.foldl advancePos p) := by
  induction l generalizing p with
  | nil => exact posLe_refl p
  | cons c rest ih => exact posLe_trans (posLe_advancePos p c) (ih (advancePos p c))

theorem posLt_foldl_advancePos (c : Char) (l : List Char) (p : Pos) :
    posLt p ((c :: l).foldl advancePos p) :=
  posLt_of_posLt_of_posLe (posLt_advancePos p c)
    (posLe_foldl_advancePos l (advancePos p c))

/-! Coverage lemmas: characters strictly before, inside, and after the
position interval of a span. -/

theorem coveredAux_before (a b : Pos) (l : List Char) (p : Pos)
    (h : posLe (l.foldl advancePos p) a) : coveredAux a b l p = [] := by
  induction l generalizing p with
  | nil => rfl
  | cons c rest ih =>
    have hpa : posLt p a :=
      posLt_of_posLt_of_posLe (posLt_foldl_advancePos c rest p) h
    have hcond : ¬ (posLe a p ∧ posLt p b) := by
      rintro ⟨h1, -⟩
      exact posLt_irrefl a (posLt_of_posLe_of_posLt h1 hpa)
    simp only [coveredAux, if_neg hcond, List.nil_append]
    exact ih (advancePos p c) h

theorem coveredAux_from (a b : Pos) (l : List Char) (p : Pos)
    (h : posLe b p) : coveredAux a b l p = [] := by
  induction l generalizing p with
  | nil => rfl
  | cons c rest ih =>
    have hcond : ¬ (posLe a p ∧ posLt p b) := by
      rintro ⟨-, h2⟩
      exact posLt_irrefl b (posLt_of_posLe_of_posLt h h2)
    simp only [coveredAux, if_neg hcond, List.nil_append]
    exact ih (advancePos p c) (posLe_trans h (posLe_advancePos p c))

theorem coveredAux_inside (a : Pos) (l : List Char) (p : Pos)
    (h : posLe a p) : coveredAux a (l.foldl advancePos p) l p = l := by
  induction l generalizing p with
  | nil => rfl
  | cons c rest ih =>
    have hcond : posLe a p ∧ posLt p (List.foldl advancePos (advancePos p c) rest) :=
      ⟨h, posLt_foldl_advancePos c rest p⟩
    simp only [coveredAux, List.foldl_cons, if_pos hcond, List.singleton_append]
    exact congrArg (c :: ·) (ih (advancePos p c) (posLe_trans h (posLe_advancePos p c)))

theorem coveredAux_append (a b : Pos) (l1 l2 : List Char) (p : Pos) :
    coveredAux a b (l1 ++ l2) p =
      coveredAux a b l1 p ++ coveredAux a b l2 (l1.foldl advancePos p) := by
  induction l1 generalizing p with
  | nil => rfl
  | cons c rest ih =>
    simp only [List.cons_append, coveredAux, List.foldl_cons, List.append_eq, ih,
      List.append_assoc]

theorem covered_decomp (pre seg post : List Char) (p0 : Pos) :
    coveredAux (pre.foldl advancePos p0) ((pre ++ seg).foldl advancePos p0)
      (pre ++ (seg ++ post)) p0 = seg := by
  rw [coveredAux_append, coveredAux_append, List.foldl_append]
  rw [coveredAux_before _ _ pre p0 (posLe_refl _)]
  rw [coveredAux_inside _ seg _ (posLe_refl _)]
  rw [coveredAux_from _ _ post _ (posLe_refl _)]
  simp

theorem coveredAux_degenerate (a : Pos) (l : List Char) (p : Pos) :
    coveredAux a a l p = [] := by
  induction l generalizing p with
  | nil => rfl
  | cons c rest ih =>
    have hcond : ¬ (posLe a p ∧ posLt p a) := by
      rintro ⟨h1, h2⟩
      exact posLt_irrefl a (posLt_of_posLe_of_posLt h1 h2)
    simp only [coveredAux, if_neg hcond, List.nil_append]
    exact ih (advancePos p c)

/-! Closed forms of the reader loops. -/

theorem readWsAux_eq (src : List Char) (sp : Span) (buf : List Char) :
    readWsAux src sp buf =
      (buf ++ src.takeWhile isWhitespace,
       (src.takeWhile isWhitespace).foldl Span.advance sp,
       src.dropWhile isWhitespace) := by
  induction src generalizing sp buf with
  | nil => simp [readWsAux]
  | cons c rest ih =>
    by_cases h : isWhitespace c = true
    · simp [readWsAux, h, List.takeWhile_cons, List.dropWhile_cons, ih, List.append_assoc]
    · simp [readWsAux, h, List.takeWhile_cons, List.dropWhile_cons]

theorem readIdentifierAux_eq (src : List Char) (sp : Span) (buf : List Char) :
    readIdentifierAux src sp buf =
      (buf ++ src.takeWhile isAlphanum,
       (src.takeWhile isAlphanum).foldl Span.advance sp,
       src.dropWhile isAlphanum) := by
  induction src generalizing sp buf with
  | nil => simp [readIdentifierAux]
  | cons c rest ih =>
    by_cases h : isAlphanum c = true
    · simp [readIdentifierAux, h, List.takeWhile_cons, List.dropWhile_cons, ih,
        List.append_assoc]
    · simp [readIdentifierAux, h, List.takeWhile_cons, List.dropWhile_cons]

theorem readDigitsAux_eq (src : List Char) (sp : Span) (buf : List Char) :
    readDigitsAux src sp buf =
      (buf ++ src.takeWhile isDigit,
       (src.takeWhile isDigit).foldl Span.advance sp,
       src.dropWhile isDigit) := by
  induction src generalizing sp buf with
  | nil => simp [readDigitsAux]
  | cons c rest ih =>
    by_cases h : isDigit c = true
    · simp [readDigitsAux, h, List.takeWhile_cons, List.dropWhile_cons, ih, List.append_assoc]
    · simp [readDigitsAux, h, List.takeWhile_cons, List.dropWhile_cons]

theorem readLineAux_eq (src : List Char) (sp : Span) (buf : List Char) :
    readLineAux src sp buf =
      (buf ++ (src.takeWhile (fun x => x != '\n') ++
         (src.dropWhile (fun x => x != '\n')).take 1),
       (src.takeWhile (fun x => x != '\n') ++
         (src.dropWhile (fun x => x != '\n')).take 1).foldl Span.advance sp,
       (src.dropWhile (fun x => x != '\n')).drop 1) := by
  induction src generalizing sp buf with
  | nil => simp [readLineAux]
  | cons c rest ih =>
    by_cases h : c = '\n'
    · subst h
      simp [readLineAux, List.takeWhile_cons, List.dropWhile_cons, Span.advance]
    · simp [readLineAux, h, List.takeWhile_cons, List.dropWhile_cons, ih,
        List.append_assoc, Span.advance]

theorem readStringAux_no_quote (src : List Char) (sp : Span) (buf : List Char)
    (h : '"' ∉ src) :
    readStringAux src sp buf = (none, src.foldl Span.advance sp, []) := by
  induction src generalizing sp buf with
  | nil => simp [readStringAux]
  | cons c rest ih =>
    simp only [List.mem_cons, not_or] at h
    have hc : ¬ (c = '"') := fun hc => h.1 hc.symm
    simp [readStringAux, hc, ih _ _ h.2]

theorem readStringAux_quote (src : List Char) (sp : Span) (buf : List Char)
    (h : '"' ∈ src) :
    readStringAux src sp buf =
      (some (buf ++ src.takeWhile (fun x => x != '"')),
       ((src.takeWhile (fun x => x != '"')).foldl Span.advance sp).advance '"',
       (src.dropWhile (fun x => x != '"')).drop 1) := by
  induction src generalizing sp buf with
  | nil => cases h
  | cons c rest ih =>
    by_cases hc : c = '"'
    · subst hc
      simp [readStringAux, List.takeWhile_cons, List.dropWhile_cons]
    · have hmem : '"' ∈ rest := by
        rcases List.mem_cons.mp h with h1 | h1
        · exact absurd h1.symm hc
        · exact h1
      simp [readStringAux, hc, List.takeWhile_cons, List.dropWhile_cons, ih _ _ hmem,
        List.append_assoc]

theorem dropWhile_head_eq (c0 : Char) (src : List Char) (h : c0 ∈ src) :
    src.dropWhile (fun x => x != c0) =
      c0 :: (src.dropWhile (fun x => x != c0)).drop 1 := by
  induction src with
  | nil => cases h
  | cons c rest ih =>
    by_cases hc : c = c0
    · subst hc
      simp [List.dropWhile_cons]
    · have hmem : c0 ∈ rest := by
        rcases List.mem_cons.mp h with h1 | h1
        · exact absurd h1.symm hc
        · exact h1
      simp only [List.dropWhile_cons]
      have hne : (c != c0) = true := by simp [hc]
      rw [if_pos hne]
      exact ih hmem

/-! Keyword table lemmas. -/

theorem strLt_antisymm : ∀ a b : List Char, strLt a b = false → strLt b a = false →
    a = b := by
  intro a
  induction a with
  | nil =>
    intro b h1 h2
    cases b with
    | nil => rfl
    | cons d bs => simp [strLt] at h1
  | cons c as ih =>
    intro b h1 h2
    cases b with
    | nil => simp [strLt] at h2
    | cons d bs =>
      by_cases hcd : c < d
      · simp [strLt, hcd] at h1
      · by_cases hdc : d < c
        · simp [strLt, hdc, hcd] at h2
        · have hceq : c = d := le_antisymm (not_lt.mp hdc) (not_lt.mp hcd)
          subst hceq
          simp only [strLt, if_neg hcd, if_neg hdc] at h1 h2
          rw [ih bs h1 h2]

theorem binarySearchGo_sound (key : String) (fuel : Nat) :
    ∀ lo hi i, hi ≤ KEYWORDS.size → binarySearchGo key fuel lo hi = some i →
      i < KEYWORDS.size ∧ (KEYWORDS[i]!).1 = key := by
  induction fuel with
  | zero =>
    intro lo hi i hhi h
    exact absurd h (by simp [binarySearchGo])
  | succ fuel ih =>
    intro lo hi i hhi h
    by_cases hlh : lo < hi
    · simp only [binarySearchGo, if_pos hlh] at h
      by_cases h1 : strLt (KEYWORDS[(lo + hi) / 2]!).1.data key.data = true
      · rw [if_pos h1] at h
        exact ih _ _ _ hhi h
      · rw [if_neg h1] at h
        by_cases h2 : strLt key.data (KEYWORDS[(lo + hi) / 2]!).1.data = true
        · rw [if_pos h2] at h
          exact ih _ _ _ (by omega) h
        · rw [if_neg h2] at h
          cases h
          refine ⟨by omega, ?_⟩
          have hdata := strLt_antisymm _ _
            (Bool.not_eq_true _ ▸ h1) (Bool.not_eq_true _ ▸ h2)
          show (KEYWORDS[(lo + hi) / 2]!).1 = key
          cases hK : (KEYWORDS[(lo + hi) / 2]!).1 with
          | mk dataK =>
            cases key with
            | mk dataKey =>
              rw [hK] at hdata
              exact congrArg String.mk hdata
    · simp [binarySearchGo, if_neg hlh] at h

theorem keywordSearch_sound (key : String) (i : Nat) (h : keywordSearch key = some i) :
    i < KEYWORDS.size ∧ (KEYWORDS[i]!).1 = key :=
  binarySearchGo_sound key KEYWORDS.size 0 KEYWORDS.size i (le_refl _) h

theorem KEYWORDS_snd_ne_eof : ∀ i, i < KEYWORDS.size → (KEYWORDS[i]!).2 ≠ Lexeme.eof := by
  decide

theorem keywordLexeme_ne_eof (key : String) : keywordLexeme key ≠ Lexeme.eof := by
  rcases hs : keywordSearch key with _ | i
  · simp [keywordLexeme, hs]
  · have hlt := (keywordSearch_sound key i hs).1
    simp only [keywordLexeme, hs]
    exact KEYWORDS_snd_ne_eof i hlt

theorem keywordLexeme_hit : ∀ kl ∈ KEYWORDS.toList, keywordLexeme kl.1 = kl.2 := by
  decide

theorem keywordLexeme_miss (key : String) (h : ∀ kl ∈ KEYWORDS.toList, kl.1 ≠ key) :
    keywordLexeme key = .identifier key := by
  rcases hs : keywordSearch key with _ | i
  · simp [keywordLexeme, hs]
  · exfalso
    obtain ⟨hlt, hkey⟩ := keywordSearch_sound key i hs
    have hmem : KEYWORDS[i]! ∈ KEYWORDS.toList := by
      rw [getElem!_pos KEYWORDS i hlt]
      exact Array.getElem_mem_toList KEYWORDS hlt
    exact h (KEYWORDS[i]!) hmem hkey

/-! Specification of one dispatch step.  On an armed-start span `mkSpan p q`,
`read_token_with_char` either fails, or produces one non-`Eof` token that
consumes a further segment `seg` of the source, with the token's span running
from `p` to the position reached by walking `seg` from `q`, and the new
accumulator re-armed at that end position. -/

theorem readTokenWithChar_spec (src : List Char) (p q : Pos) (c : Char) :
    (∃ e, Context.readTokenWithChar ⟨src, mkSpan p q, false⟩ c = .error e) ∨
    (∃ lex seg src1, lex ≠ Lexeme.eof ∧ src = seg ++ src1 ∧
      Context.readTokenWithChar ⟨src, mkSpan p q, false⟩ c =
        .ok (some ⟨lex, mkSpan p (seg.foldl advancePos q)⟩,
             ⟨src1, mkSpan (seg.foldl advancePos q) (seg.foldl advancePos q), false⟩)) := by
  by_cases h1 : c = '('
  · subst h1
    exact .inr ⟨.leftParen, [], src, by decide, rfl, rfl⟩
  by_cases h2 : c = ')'
  · subst h2
    exact .inr ⟨.rightParen, [], src, by decide, rfl, rfl⟩
  by_cases h3 : c = '\x7b'
  · subst h3
    exact .inr ⟨.leftBrace, [], src, by decide, rfl, rfl⟩
  by_cases h4 : c = '\x7d'
  · subst h4
    exact .inr ⟨.rightBrace, [], src, by decide, rfl, rfl⟩
  by_cases h5 : c = ','
  · subst h5
    exact .inr ⟨.comma, [], src, by decide, rfl, rfl⟩
  by_cases h6 : c = '.'
  · subst h6
    exact .inr ⟨.dot, [], src, by decide, rfl, rfl⟩
  by_cases h7 : c = '+'
  · subst h7
    exact .inr ⟨.plus, [], src, by decide, rfl, rfl⟩
  by_cases h8 : c = '-'
  · subst h8
    exact .inr ⟨.minus, [], src, by decide, rfl, rfl⟩
  by_cases h9 : c = ';'
  · subst h9
    exact .inr ⟨.semicolon, [], src, by decide, rfl, rfl⟩
  by_cases h10 : c = '*'
  · subst h10
    exact .inr ⟨.star, [], src, by decide, rfl, rfl⟩
  by_cases h11 : c = '!'
  · subst h11
    rcases src with _ | ⟨d, rest⟩
    · exact .inr ⟨.bang, [], [], by decide, rfl, rfl⟩
    by_cases hd : '=' = d
    · subst hd
      exact .inr ⟨.bangEqual, ['='], rest, by decide, rfl, rfl⟩
    · refine .inr ⟨.bang, [], d :: rest, by decide, rfl, ?_⟩
      have hstep : Context.readTokenWithChar ⟨d :: rest, mkSpan p q, false⟩ '!' =
          .ok (Context.mkBangOrBangEqual ⟨d :: rest, mkSpan p q, false⟩) := rfl
      rw [hstep]
      simp only [Context.mkBangOrBangEqual, Context.readCharIf, if_neg hd]
      rfl
  by_cases h12 : c = '='
  · subst h12
    rcases src with _ | ⟨d, rest⟩
    · exact .inr ⟨.equal, [], [], by decide, rfl, rfl⟩
    by_cases hd : '=' = d
    · subst hd
      exact .inr ⟨.equalEqual, ['='], rest, by decide, rfl, rfl⟩
    · refine .inr ⟨.equal, [], d :: rest, by decide, rfl, ?_⟩
      have hstep : Context.readTokenWithChar ⟨d :: rest, mkSpan p q, false⟩ '=' =
          .ok (Context.mkEqualOrEqualEqual ⟨d :: rest, mkSpan p q, false⟩) := rfl
      rw [hstep]
      simp only [Context.mkEqualOrEqualEqual, Context.readCharIf, if_neg hd]
      rfl
  by_cases h13 : c = '>'
  · subst h13
    rcases src with _ | ⟨d, rest⟩
    · exact .inr ⟨.greater, [], [], by decide, rfl, rfl⟩
    by_cases hd : '=' = d
    · subst hd
      exact .inr ⟨.greaterEqual, ['='], rest, by decide, rfl, rfl⟩
    · refine .inr ⟨.greater, [], d :: rest, by decide, rfl, ?_⟩
      have hstep : Context.readTokenWithChar ⟨d :: rest, mkSpan p q, false⟩ '>' =
          .ok (Context.mkGreaterOrGreaterEqual ⟨d :: rest, mkSpan p q, false⟩) := rfl
      rw [hstep]
      simp only [Context.mkGreaterOrGreaterEqual, Context.readCharIf, if_neg hd]
      rfl
  by_cases h14 : c = '<'
  · subst h14
    rcases src with _ | ⟨d, rest⟩
    · exact .inr ⟨.less, [], [], by decide, rfl, rfl⟩
    by_cases hd : '=' = d
    · subst hd
      exact .inr ⟨.lessEqual, ['='], rest, by decide, rfl, rfl⟩
    · refine .inr ⟨.less, [], d :: rest, by decide, rfl, ?_⟩
      have hstep : Context.readTokenWithChar ⟨d :: rest, mkSpan p q, false⟩ '<' =
          .ok (Context.mkLessOrLessEqual ⟨d :: rest, mkSpan p q, false⟩) := rfl
      rw [hstep]
      simp only [Context.mkLessOrLessEqual, Context.readCharIf, if_neg hd]
      rfl
  by_cases h15 : c = '/'
  · subst h15
    rcases src with _ | ⟨d, rest⟩
    · exact .inr ⟨.slash, [], [], by decide, rfl, rfl⟩
    by_cases hd : '/' = d
    · subst hd
      refine .inr ⟨.comment ⟨rest.takeWhile (fun x => x != '\n') ++
          (rest.dropWhile (fun x => x != '\n')).take 1⟩,
        '/' :: (rest.takeWhile (fun x => x != '\n') ++
          (rest.dropWhile (fun x => x != '\n')).take 1),
        (rest.dropWhile (fun x => x != '\n')).drop 1, by simp, ?_, ?_⟩
      · rw [List.cons_append, List.append_assoc, List.take_append_drop,
          List.takeWhile_append_dropWhile]
      · show (Except.ok (Context.mkComment ⟨rest, (mkSpan p q).advance '/', false⟩) :
            Except LexError (Option Token × Context)) = _
        rw [show (mkSpan p q).advance '/' = mkSpan p (advancePos q '/') from rfl]
        simp only [Context.mkComment, readLineAux_eq, Span.foldl_advance_mkSpan,
          List.nil_append, List.foldl_cons]
        rfl
    · refine .inr ⟨.slash, [], d :: rest, by decide, rfl, ?_⟩
      have hstep : Context.readTokenWithChar ⟨d :: rest, mkSpan p q, false⟩ '/' =
          .ok (Context.mkSlashOrComment ⟨d :: rest, mkSpan p q, false⟩) := rfl
      rw [hstep]
      simp only [Context.mkSlashOrComment, Context.readCharIf, if_neg hd]
      rfl
  by_cases h16 : c = '\n'
  · subst h16
    exact .inr ⟨.newLine, [], src, by decide, rfl, rfl⟩
  by_cases h17 : c = '"'
  · subst h17
    by_cases hq : '"' ∈ src
    · refine .inr ⟨.string ⟨src.takeWhile (fun x => x != '"')⟩,
        src.takeWhile (fun x => x != '"') ++ ['"'],
        (src.dropWhile (fun x => x != '"')).drop 1, by simp, ?_, ?_⟩
      · rw [List.append_assoc, List.singleton_append, ← dropWhile_head_eq '"' src hq,
          List.takeWhile_append_dropWhile]
      · show Context.mkString ⟨src, mkSpan p q, false⟩ = _
        simp only [Context.mkString, readStringAux_quote src _ [] hq,
          Span.foldl_advance_mkSpan, Span.advance_mkSpan, List.nil_append,
          List.foldl_append, List.foldl_cons, List.foldl_nil]
        rfl
    · refine .inl ⟨.unterminatedString, ?_⟩
      show Context.mkString ⟨src, mkSpan p q, false⟩ = _
      simp only [Context.mkString, readStringAux_no_quote src _ [] hq]
  by_cases h18 : isWhitespace c = true
  · refine .inr ⟨.whitespace ⟨c :: src.takeWhile isWhitespace⟩, src.takeWhile isWhitespace,
      src.dropWhile isWhitespace, by simp,
      (List.takeWhile_append_dropWhile isWhitespace src).symm, ?_⟩
    simp only [Context.readTokenWithChar, if_neg h1, if_neg h2, if_neg h3, if_neg h4,
      if_neg h5, if_neg h6, if_neg h7, if_neg h8, if_neg h9, if_neg h10, if_neg h11,
      if_neg h12, if_neg h13, if_neg h14, if_neg h15, if_neg h16, if_neg h17, if_pos h18]
    simp only [Context.mkWhitespace, readWsAux_eq, Span.foldl_advance_mkSpan]
    rfl
  by_cases h19 : isDigit c = true
  · have hred : Context.readTokenWithChar ⟨src, mkSpan p q, false⟩ c =
        Context.mkNumber ⟨src, mkSpan p q, false⟩ c := by
      simp only [Context.readTokenWithChar, if_neg h1, if_neg h2, if_neg h3, if_neg h4,
        if_neg h5, if_neg h6, if_neg h7, if_neg h8, if_neg h9, if_neg h10, if_neg h11,
        if_neg h12, if_neg h13, if_neg h14, if_neg h15, if_neg h16, if_neg h17,
        if_neg h18, if_pos h19]
    rcases hdw : src.dropWhile isDigit with _ | ⟨c2, rest2⟩
    · refine .inr ⟨.number ⟨c :: src.takeWhile isDigit⟩, src.takeWhile isDigit, [],
        by simp, ?_, ?_⟩
      · conv_lhs => rw [← List.takeWhile_append_dropWhile isDigit src, hdw]
      · rw [hred]
        simp only [Context.mkNumber, readNumberAux, readDigitsAux_eq, hdw,
          Span.foldl_advance_mkSpan]
        rfl
    by_cases hc2 : c2 = '.'
    · subst hc2
      rcases rest2 with _ | ⟨d2, rest3⟩
      · refine .inl ⟨.malformedNumber, ?_⟩
        rw [hred]
        simp only [Context.mkNumber, readNumberAux, readDigitsAux_eq, hdw, if_true]
      by_cases hd2 : isDigit d2 = true
      · refine .inr ⟨.number ⟨(c :: src.takeWhile isDigit) ++
            '.' :: (d2 :: rest3).takeWhile isDigit⟩,
          src.takeWhile isDigit ++ '.' :: (d2 :: rest3).takeWhile isDigit,
          (d2 :: rest3).dropWhile isDigit, by simp, ?_, ?_⟩
        · conv_lhs => rw [← List.takeWhile_append_dropWhile isDigit src, hdw]
          rw [List.append_assoc, List.cons_append,
            List.takeWhile_append_dropWhile isDigit (d2 :: rest3)]
        · rw [hred]
          simp only [Context.mkNumber, readNumberAux, readDigitsAux_eq, hdw,
            Span.foldl_advance_mkSpan, Span.advance_mkSpan, List.foldl_append,
            List.foldl_cons, List.append_assoc, List.singleton_append,
            List.cons_append, if_pos hd2, if_true]
          rfl
      · refine .inl ⟨.malformedNumber, ?_⟩
        rw [hred]
        simp only [Context.mkNumber, readNumberAux, readDigitsAux_eq, hdw, if_neg hd2,
          if_true]
    · refine .inr ⟨.number ⟨c :: src.takeWhile isDigit⟩, src.takeWhile isDigit,
        c2 :: rest2, by simp, ?_, ?_⟩
      · conv_lhs => rw [← List.takeWhile_append_dropWhile isDigit src, hdw]
      · rw [hred]
        simp only [Context.mkNumber, readNumberAux, readDigitsAux_eq, hdw, if_neg hc2,
          Span.foldl_advance_mkSpan]
        rfl
  by_cases h20 : isAlpha c = true
  · refine .inr ⟨keywordLexeme ⟨c :: src.takeWhile isAlphanum⟩, src.takeWhile isAlphanum,
      src.dropWhile isAlphanum, keywordLexeme_ne_eof _,
      (List.takeWhile_append_dropWhile isAlphanum src).symm, ?_⟩
    simp only [Context.readTokenWithChar, if_neg h1, if_neg h2, if_neg h3, if_neg h4,
      if_neg h5, if_neg h6, if_neg h7, if_neg h8, if_neg h9, if_neg h10, if_neg h11,
      if_neg h12, if_neg h13, if_neg h14, if_neg h15, if_neg h16, if_neg h17,
      if_neg h18, if_neg h19, if_pos h20]
    simp only [Context.mkIdentifierOrKeyword, readIdentifierAux_eq,
      Span.foldl_advance_mkSpan]
    rfl
  · exact .inl ⟨.unknownChar c, by
      simp only [Context.readTokenWithChar, if_neg h1, if_neg h2, if_neg h3, if_neg h4,
        if_neg h5, if_neg h6, if_neg h7, if_neg h8, if_neg h9, if_neg h10, if_neg h11,
        if_neg h12, if_neg h13, if_neg h14, if_neg h15, if_neg h16, if_neg h17,
        if_neg h18, if_neg h19, if_neg h20]⟩

/-! Specification of one `read` step from an armed state. -/

theorem read_step (src : List Char) (p : Pos) :
    (∃ e, Context.read ⟨src, mkSpan p p, false⟩ = .error e) ∨
    (∃ lex seg src1 flag1, src = seg ++ src1 ∧
      Context.read ⟨src, mkSpan p p, false⟩ =
        .ok (some ⟨lex, mkSpan p (seg.foldl advancePos p)⟩,
             ⟨src1, mkSpan (seg.foldl advancePos p) (seg.foldl advancePos p), flag1⟩) ∧
      ((lex = Lexeme.eof ∧ seg = [] ∧ src1 = [] ∧ flag1 = true) ∨
       (lex ≠ Lexeme.eof ∧ seg ≠ [] ∧ flag1 = false))) := by
  rcases src with _ | ⟨c, rest⟩
  · exact .inr ⟨.eof, [], [], true, rfl, rfl, .inl ⟨rfl, rfl, rfl, rfl⟩⟩
  · have hstep : Context.read ⟨c :: rest, mkSpan p p, false⟩ =
        Context.readTokenWithChar ⟨rest, (mkSpan p p).advance c, false⟩ c := rfl
    rw [Span.advance_mkSpan] at hstep
    rcases readTokenWithChar_spec rest p (advancePos p c) c with
      ⟨e, he⟩ | ⟨lex, seg, src1, hne, hsrc, heq⟩
    · exact .inl ⟨e, by rw [hstep, he]⟩
    · refine .inr ⟨lex, c :: seg, src1, false, by rw [List.cons_append, hsrc], ?_,
        .inr ⟨hne, by simp, rfl⟩⟩
      rw [hstep, heq]
      rfl

/-- Fuel one or more suffices once the terminal flag is set. -/
theorem scanFuel_flagged (fuel : Nat) (ctx : Context) (h : ctx.eofGenerated = true)
    (hf : 1 ≤ fuel) : scanFuel fuel ctx = .ok [] := by
  rcases fuel with _ | fuel
  · omega
  · simp [scanFuel, Context.read, h]

/-- Main scan invariant: with enough fuel, scanning from an armed state either
fails or produces a `TokChain` tiling of the remaining source. -/
theorem scanFuel_spec : ∀ (fuel : Nat) (src : List Char) (p : Pos),
    src.length + 2 ≤ fuel →
    (∃ e, scanFuel fuel ⟨src, mkSpan p p, false⟩ = .error e) ∨
    (∃ ts, scanFuel fuel ⟨src, mkSpan p p, false⟩ = .ok ts ∧ TokChain p src ts) := by
  intro fuel
  induction fuel with
  | zero =>
    intro src p h
    omega
  | succ fuel ih =>
    intro src p h
    rcases read_step src p with ⟨e, he⟩ | ⟨lex, seg, src1, flag1, hsrc, heq, hcase⟩
    · exact .inl ⟨e, by simp [scanFuel, he]⟩
    rcases hcase with ⟨hlex, hseg, hsrc1, hflag⟩ | ⟨hlex, hseg, hflag⟩
    · subst hlex hseg hsrc1 hflag
      have hsrc0 : src = [] := by simpa using hsrc
      subst hsrc0
      refine .inr ⟨[⟨.eof, mkSpan p p⟩], ?_, TokChain.eofTok p⟩
      simp [scanFuel, heq, scanFuel_flagged fuel ⟨[], mkSpan p p, true⟩ rfl (by omega)]
    · subst hflag
      have hlen : src1.length + 2 ≤ fuel := by
        have hlen2 : src.length = seg.length + src1.length := by
          rw [hsrc]
          simp
        have hsegpos : 1 ≤ seg.length := by
          rcases seg with _ | _
          · exact absurd rfl hseg
          · simp
        omega
      rcases ih src1 (seg.foldl advancePos p) hlen with ⟨e, he⟩ | ⟨ts, hts, hchain⟩
      · exact .inl ⟨e, by simp [scanFuel, heq, he]⟩
      · refine .inr ⟨⟨lex, mkSpan p (seg.foldl advancePos p)⟩ :: ts, ?_, ?_⟩
        · simp [scanFuel, heq, hts]
        · rw [hsrc]
          exact TokChain.consTok p seg src1 _ ts hlex hseg rfl hchain

/-- Fuel independence above the sufficient bound. -/
theorem scanFuel_congr : ∀ (f1 f2 : Nat) (src : List Char) (p : Pos),
    src.length + 2 ≤ f1 → src.length + 2 ≤ f2 →
    scanFuel f1 ⟨src, mkSpan p p, false⟩ = scanFuel f2 ⟨src, mkSpan p p, false⟩ := by
  intro f1
  induction f1 with
  | zero =>
    intro f2 src p h1 h2
    omega
  | succ f1 ih =>
    intro f2 src p h1 h2
    rcases f2 with _ | f2
    · omega
    rcases read_step src p with ⟨e, he⟩ | ⟨lex, seg, src1, flag1, hsrc, heq, hcase⟩
    · simp [scanFuel, he]
    rcases hcase with ⟨hlex, hseg, hsrc1, hflag⟩ | ⟨hlex, hseg, hflag⟩
    · subst hseg hsrc1 hflag
      have hsrc0 : src = [] := by simpa using hsrc
      subst hsrc0
      simp [scanFuel, heq, scanFuel_flagged f1 ⟨[], mkSpan p p, true⟩ rfl (by omega),
        scanFuel_flagged f2 ⟨[], mkSpan p p, true⟩ rfl (by omega)]
    · subst hflag
      have hlen2 : src.length = seg.length + src1.length := by
        rw [hsrc]
        simp
      have hsegpos : 1 ≤ seg.length := by
        rcases seg with _ | _
        · exact absurd rfl hseg
        · simp
      simp [scanFuel, heq,
        ih f2 src1 (seg.foldl advancePos p) (by omega) (by omega)]

/-! Consequences of `TokChain`. -/

theorem tokChain_ne_nil {p : Pos} {src : List Char} {ts : List Token}
    (h : TokChain p src ts) : ts ≠ [] := by
  cases h <;> simp

theorem tokChain_last_eof {p : Pos} {src : List Char} {ts : List Token}
    (h : TokChain p src ts) : (ts.map Token.lexeme).getLast? = some Lexeme.eof := by
  induction h with
  | eofTok p => rfl
  | consTok p seg src t ts hne hseg hspan hchain ih =>
    rcases ts with _ | ⟨t2, ts2⟩
    · exact absurd rfl (tokChain_ne_nil hchain)
    · simpa [List.getLast?_cons_cons] using ih

theorem tokChain_count_eof {p : Pos} {src : List Char} {ts : List Token}
    (h : TokChain p src ts) : ts.countP (fun t => t.lexeme == Lexeme.eof) = 1 := by
  induction h with
  | eofTok p => rfl
  | consTok p seg src t ts hne hseg hspan hchain ih =>
    simp [List.countP_cons, hne, ih]

theorem tokChain_non_eof_bound {p : Pos} {src : List Char} {ts : List Token}
    (h : TokChain p src ts) :
    ts.countP (fun t => !(t.lexeme == Lexeme.eof)) ≤ src.length := by
  induction h with
  | eofTok p => simp [List.countP_cons]
  | consTok p seg src t ts hne hseg hspan hchain ih =>
    have hsegpos : 1 ≤ seg.length := by
      rcases seg with _ | _
      · exact absurd rfl hseg
      · simp
    simp only [List.countP_cons, List.length_append]
    have hpred : (fun t => !(t.lexeme == Lexeme.eof)) t = true := by simp [hne]
    rw [if_pos hpred]
    omega

theorem tokChain_chainB {p : Pos} {src : List Char} {ts : List Token}
    (h : TokChain p src ts) : spansChainB p ts = true := by
  induction h with
  | eofTok p => simp [spansChainB, Span.startPos, mkSpan]
  | consTok p seg src t ts hne hseg hspan hchain ih =>
    simp [spansChainB, hspan, Span.startPos, Span.endPos, mkSpan, ih]

theorem tokChain_covered {p : Pos} {src : List Char} {ts : List Token}
    (h : TokChain p src ts) :
    ∀ pre S, S = pre ++ src → p = pre.foldl advancePos (1, 0) →
      (ts.map (fun t => covered S t.span)).flatten = src := by
  induction h with
  | eofTok p =>
    intro pre S hS hp
    simp [covered, mkSpan_startPos, mkSpan_endPos, coveredAux_degenerate]
  | consTok p seg src t ts hne hseg hspan hchain ih =>
    intro pre S hS hp
    have hcov : covered S t.span = seg := by
      rw [hspan]
      unfold covered
      rw [mkSpan_startPos, mkSpan_endPos, hS, hp]
      have hdec := covered_decomp pre seg src (1, 0)
      rw [List.foldl_append] at hdec
      exact hdec
    have hrest := ih (pre ++ seg) S (by rw [hS, List.append_assoc])
      (by rw [List.foldl_append, ← hp])
    simp [hcov, hrest]

/-! Top-level scan characterization. -/

theorem scan_spec (s : String) :
    (∃ e, scan s = .error e) ∨
    (∃ ts, scan s = .ok ts ∧ TokChain (1, 0) s.data ts) :=
  scanFuel_spec (s.data.length + 2) s.data (1, 0) (le_refl _)

theorem scan_ok_tokChain (s : String) (ts : List Token) (h : scan s = .ok ts) :
    TokChain (1, 0) s.data ts := by
  rcases scan_spec s with ⟨e, he⟩ | ⟨ts2, hts, hchain⟩
  · rw [h] at he
    cases he
  · rw [h] at hts
    cases hts
    exact hchain

/-! Character-class helper lemmas. -/

theorem isWhitespace_cases (c : Char) (h : isWhitespace c = true) :
    c = ' ' ∨ c = '\t' ∨ c = '\r' := by
  simpa [isWhitespace, or_assoc] using h

theorem ws_ne_newline (c : Char) (h : isWhitespace c = true) : c ≠ '\n' := by
  rcases isWhitespace_cases c h with rfl | rfl | rfl <;> decide

theorem isDigit_eq_false_of_isAlpha (c : Char) (h : isAlpha c = true) :
    isDigit c = false := by
  cases hD : isDigit c with
  | false => rfl
  | true =>
    exfalso
    simp only [isAlpha, Bool.or_eq_true, Bool.and_eq_true, decide_eq_true_eq] at h
    simp only [isDigit, Bool.and_eq_true, decide_eq_true_eq] at hD
    obtain ⟨hd1, hd2⟩ := hD
    rw [Char.le_def, UInt32.le_def, BitVec.le_def] at hd1 hd2
    simp at hd1 hd2
    rcases h with (⟨h3, h4⟩ | ⟨h3, h4⟩) | rfl
    · rw [Char.le_def, UInt32.le_def, BitVec.le_def] at h3 h4
      simp at h3 h4
      omega
    · rw [Char.le_def, UInt32.le_def, BitVec.le_def] at h3 h4
      simp at h3 h4
      omega
    · simp at hd1 hd2

theorem isWhitespace_eq_false_of_isAlpha (c : Char) (h : isAlpha c = true) :
    isWhitespace c = false := by
  cases hw : isWhitespace c with
  | false => rfl
  | true =>
    exfalso
    rcases isWhitespace_cases c hw with rfl | rfl | rfl <;> exact absurd h (by decide)

theorem alpha_not_special (a : Char) (h : isAlpha a = true) :
    ¬ a = '(' ∧ ¬ a = ')' ∧ ¬ a = '\x7b' ∧ ¬ a = '\x7d' ∧ ¬ a = ',' ∧ ¬ a = '.' ∧
    ¬ a = '+' ∧ ¬ a = '-' ∧ ¬ a = ';' ∧ ¬ a = '*' ∧ ¬ a = '!' ∧ ¬ a = '=' ∧
    ¬ a = '>' ∧ ¬ a = '<' ∧ ¬ a = '/' ∧ ¬ a = '\n' ∧ ¬ a = '"' := by
  refine ⟨?_, ?_, ?_, ?_, ?_, ?_, ?_, ?_, ?_, ?_, ?_, ?_, ?_, ?_, ?_, ?_, ?_⟩ <;>
    (rintro rfl; exact absurd h (by decide))

/-- C1: for every input text, the token sequence produced by repeatedly
calling the engine's `read` ends with exactly one `Eof` token and never
contains a second `Eof`; once `eof_generated` is true, every further call to
`read` produces nothing. -/
theorem claim_C1 :
    (∀ ctx : Context, ctx.eofGenerated = true → ctx.read = .ok (none, ctx)) ∧
    (∀ (s : String) (ts : List Token), scan s = .ok ts →
      (ts.map Token.lexeme).getLast? = some Lexeme.eof ∧
      ts.countP (fun t => t.lexeme == Lexeme.eof) = 1) := by
  constructor
  · intro ctx h
    simp [Context.read, h]
  · intro s ts h
    have hchain := scan_ok_tokChain s ts h
    exact ⟨tokChain_last_eof hchain, tokChain_count_eof hchain⟩

/-- Witness for C1 at the one-identifier input and at a flagged context. -/
theorem claim_C1_witness :
    ((([⟨.identifier "a", ⟨1, 0, 1, 1⟩⟩, ⟨.eof, ⟨1, 1, 1, 1⟩⟩] : List Token).map
        Token.lexeme).getLast? = some Lexeme.eof ∧
      ([⟨.identifier "a", ⟨1, 0, 1, 1⟩⟩, ⟨.eof, ⟨1, 1, 1, 1⟩⟩] : List Token).countP
        (fun t => t.lexeme == Lexeme.eof) = 1) ∧
    Context.read ⟨[], Span.default, true⟩ = .ok (none, ⟨[], Span.default, true⟩) :=
  ⟨claim_C1.2 "a" [⟨.identifier "a", ⟨1, 0, 1, 1⟩⟩, ⟨.eof, ⟨1, 1, 1, 1⟩⟩] rfl,
   claim_C1.1 ⟨[], Span.default, true⟩ rfl⟩

/-- C2: for every input whose scan succeeds, the completed spans of the
successive tokens tile the source with no gaps or overlaps — each span starts
where the previous one ended (from the origin), and concatenating the source
text covered by each successive token's span (by column range, per line)
reconstructs the original input. -/
theorem claim_C2 :
    ∀ (s : String) (ts : List Token), scan s = .ok ts →
      spansChainB (1, 0) ts = true ∧
      (ts.map (fun t => covered s.data t.span)).flatten = s.data := by
  intro s ts h
  have hchain := scan_ok_tokChain s ts h
  exact ⟨tokChain_chainB hchain, tokChain_covered hchain [] s.data rfl rfl⟩

/-- Witness for C2 at the input containing a parenthesised identifier and a
newline. -/
theorem claim_C2_witness :
    spansChainB (1, 0) [⟨.leftParen, ⟨1, 0, 1, 1⟩⟩, ⟨.identifier "a", ⟨1, 1, 1, 2⟩⟩,
      ⟨.newLine, ⟨1, 2, 2, 0⟩⟩, ⟨.rightParen, ⟨2, 0, 2, 1⟩⟩,
      ⟨.eof, ⟨2, 1, 2, 1⟩⟩] = true ∧
    (([⟨.leftParen, ⟨1, 0, 1, 1⟩⟩, ⟨.identifier "a", ⟨1, 1, 1, 2⟩⟩,
      ⟨.newLine, ⟨1, 2, 2, 0⟩⟩, ⟨.rightParen, ⟨2, 0, 2, 1⟩⟩,
      ⟨.eof, ⟨2, 1, 2, 1⟩⟩] : List Token).map
        (fun t => covered ("(a\n)").data t.span)).flatten = ("(a\n)").data :=
  claim_C2 "(a\n)" [⟨.leftParen, ⟨1, 0, 1, 1⟩⟩, ⟨.identifier "a", ⟨1, 1, 1, 2⟩⟩,
    ⟨.newLine, ⟨1, 2, 2, 0⟩⟩, ⟨.rightParen, ⟨2, 0, 2, 1⟩⟩,
    ⟨.eof, ⟨2, 1, 2, 1⟩⟩] rfl

/-- C3: whenever a string literal's opening quote is read and no closing
quote follows before the cursor is exhausted, `read` surfaces the distinct
`unterminatedString` failure and produces no `String` token; in particular
the input consisting of a quote followed by `abc` fails that way. -/
theorem claim_C3 :
    (∀ (ctx : Context) (rest : List Char), ctx.eofGenerated = false →
      ctx.source = '"' :: rest → '"' ∉ rest →
      ctx.read = .error .unterminatedString) ∧
    scan "\"abc" = .error .unterminatedString := by
  constructor
  · intro ctx rest hf hs hq
    obtain ⟨src, sp, flag⟩ := ctx
    simp only at hf hs
    subst hf
    subst hs
    have hstep : Context.read ⟨'"' :: rest, sp, false⟩ =
        Context.mkString ⟨rest, sp.advance '"', false⟩ := rfl
    rw [hstep]
    simp [Context.mkString, readStringAux_no_quote rest _ [] hq]
  · rfl

/-- Witness for C3 at a two-character unterminated literal. -/
theorem claim_C3_witness :
    Context.read ⟨['"', 'a'], Span.default, false⟩ = .error .unterminatedString :=
  claim_C3.1 ⟨['"', 'a'], Span.default, false⟩ ['a'] rfl rfl (by decide)

/-- C4: the input `12.3` scans to the single number token carrying the
numeral `12.3` (the value `f64::from_str` reads back from that text), while
`12.` — digits followed by a dot with no following digit — surfaces the
malformed-number failure instead of producing a number token and a stray
dot. -/
theorem claim_C4 :
    scan "12.3" = .ok [⟨.number "12.3", ⟨1, 0, 1, 4⟩⟩, ⟨.eof, ⟨1, 4, 1, 4⟩⟩] ∧
    scan "12." = .error .malformedNumber :=
  ⟨rfl, rfl⟩

/-- Table of the four one-or-two-character operator families: the trigger
character, the one-character lexeme, and the two-character lexeme. -/
def opTable : List (Char × Lexeme × Lexeme) :=
  [('!', .bang, .bangEqual), ('=', .equal, .equalEqual),
   ('>', .greater, .greaterEqual), ('<', .less, .lessEqual)]

/-- C5: each of `!`, `=`, `>`, `<` peeks exactly one character ahead — if the
next character is `=` it is consumed and the two-character token emitted,
otherwise the one-character token is emitted with nothing further consumed;
in particular `!=` scans to a single `BangEqual` and `! ` to `Bang` then
`Whitespace(" ")`. -/
theorem claim_C5 :
    (∀ c l1 l2, (c, l1, l2) ∈ opTable →
      ∀ (sp : Span) (rest : List Char),
        (Context.read ⟨c :: '=' :: rest, sp, false⟩ =
          .ok (some ⟨l2, ((sp.advance c).advance '=').complete.1⟩,
               ⟨rest, ((sp.advance c).advance '=').complete.2, false⟩)) ∧
        (∀ d, d ≠ '=' →
          Context.read ⟨c :: d :: rest, sp, false⟩ =
            .ok (some ⟨l1, (sp.advance c).complete.1⟩,
                 ⟨d :: rest, (sp.advance c).complete.2, false⟩)) ∧
        (Context.read ⟨[c], sp, false⟩ =
          .ok (some ⟨l1, (sp.advance c).complete.1⟩,
               ⟨[], (sp.advance c).complete.2, false⟩))) ∧
    scan "!=" = .ok [⟨.bangEqual, ⟨1, 0, 1, 2⟩⟩, ⟨.eof, ⟨1, 2, 1, 2⟩⟩] ∧
    scan "! " = .ok [⟨.bang, ⟨1, 0, 1, 1⟩⟩, ⟨.whitespace " ", ⟨1, 1, 1, 2⟩⟩,
      ⟨.eof, ⟨1, 2, 1, 2⟩⟩] := by
  refine ⟨?_, rfl, rfl⟩
  intro c l1 l2 hmem sp rest
  simp only [opTable, List.mem_cons, List.not_mem_nil, or_false, Prod.mk.injEq] at hmem
  rcases hmem with ⟨rfl, rfl, rfl⟩ | ⟨rfl, rfl, rfl⟩ | ⟨rfl, rfl, rfl⟩ | ⟨rfl, rfl, rfl⟩
  · refine ⟨rfl, ?_, rfl⟩
    intro d hd
    have hstep : Context.read ⟨'!' :: d :: rest, sp, false⟩ =
        .ok (Context.mkBangOrBangEqual ⟨d :: rest, sp.advance '!', false⟩) := rfl
    rw [hstep]
    simp only [Context.mkBangOrBangEqual, Context.readCharIf, if_neg (Ne.symm hd)]
    rfl
  · refine ⟨rfl, ?_, rfl⟩
    intro d hd
    have hstep : Context.read ⟨'=' :: d :: rest, sp, false⟩ =
        .ok (Context.mkEqualOrEqualEqual ⟨d :: rest, sp.advance '=', false⟩) := rfl
    rw [hstep]
    simp only [Context.mkEqualOrEqualEqual, Context.readCharIf, if_neg (Ne.symm hd)]
    rfl
  · refine ⟨rfl, ?_, rfl⟩
    intro d hd
    have hstep : Context.read ⟨'>' :: d :: rest, sp, false⟩ =
        .ok (Context.mkGreaterOrGreaterEqual ⟨d :: rest, sp.advance '>', false⟩) := rfl
    rw [hstep]
    simp only [Context.mkGreaterOrGreaterEqual, Context.readCharIf, if_neg (Ne.symm hd)]
    rfl
  · refine ⟨rfl, ?_, rfl⟩
    intro d hd
    have hstep : Context.read ⟨'<' :: d :: rest, sp, false⟩ =
        .ok (Context.mkLessOrLessEqual ⟨d :: rest, sp.advance '<', false⟩) := rfl
    rw [hstep]
    simp only [Context.mkLessOrLessEqual, Context.readCharIf, if_neg (Ne.symm hd)]
    rfl

/-- Witness for C5: `>=` consumes both characters into `GreaterEqual`, while
`>x` emits `Greater` and leaves `x` unconsumed. -/
theorem claim_C5_witness :
    Context.read ⟨['>', '='], Span.default, false⟩ =
      .ok (some ⟨.greaterEqual, ((Span.default.advance '>').advance '=').complete.1⟩,
           ⟨[], ((Span.default.advance '>').advance '=').complete.2, false⟩) ∧
    Context.read ⟨['>', 'x'], Span.default, false⟩ =
      .ok (some ⟨.greater, (Span.default.advance '>').complete.1⟩,
           ⟨['x'], (Span.default.advance '>').complete.2, false⟩) :=
  ⟨(claim_C5.1 '>' .greater .greaterEqual (by decide) Span.default []).1,
   (claim_C5.1 '>' .greater .greaterEqual (by decide) Span.default []).2.1 'x' (by decide)⟩

/-- C6: a run opened by an ASCII letter or underscore is consumed maximally
(letters, digits, underscores) and resolved through the binary search over
the sorted keyword table: a hit yields that keyword's lexeme and any other
text becomes an identifier; `classify` scans to the single identifier
`classify`. -/
theorem claim_C6 :
    (∀ (ctx : Context) (a : Char) (rest : List Char), ctx.eofGenerated = false →
      ctx.source = a :: rest → isAlpha a = true →
      ∃ sp ctx1, ctx.read =
        .ok (some ⟨keywordLexeme ⟨a :: rest.takeWhile isAlphanum⟩, sp⟩, ctx1) ∧
        ctx1.source = rest.dropWhile isAlphanum) ∧
    (∀ kl ∈ KEYWORDS.toList, keywordLexeme kl.1 = kl.2) ∧
    (∀ key : String, (∀ kl ∈ KEYWORDS.toList, kl.1 ≠ key) →
      keywordLexeme key = .identifier key) ∧
    scan "classify" =
      .ok [⟨.identifier "classify", ⟨1, 0, 1, 8⟩⟩, ⟨.eof, ⟨1, 8, 1, 8⟩⟩] := by
  refine ⟨?_, keywordLexeme_hit, keywordLexeme_miss, rfl⟩
  intro ctx a rest hf hs hA
  obtain ⟨src, sp, flag⟩ := ctx
  simp only at hf hs
  subst hf
  subst hs
  obtain ⟨h1, h2, h3, h4, h5, h6, h7, h8, h9, h10, h11, h12, h13, h14, h15, h16, h17⟩ :=
    alpha_not_special a hA
  have h18 : ¬ isWhitespace a = true := by
    simp [isWhitespace_eq_false_of_isAlpha a hA]
  have h19 : ¬ isDigit a = true := by
    simp [isDigit_eq_false_of_isAlpha a hA]
  have hstep : Context.read ⟨a :: rest, sp, false⟩ =
      Context.readTokenWithChar ⟨rest, sp.advance a, false⟩ a := rfl
  refine ⟨((rest.takeWhile isAlphanum).foldl Span.advance (sp.advance a)).complete.1,
    ⟨rest.dropWhile isAlphanum,
      ((rest.takeWhile isAlphanum).foldl Span.advance (sp.advance a)).complete.2, false⟩,
    ?_, rfl⟩
  rw [hstep]
  simp only [Context.readTokenWithChar, if_neg h1, if_neg h2, if_neg h3, if_neg h4,
    if_neg h5, if_neg h6, if_neg h7, if_neg h8, if_neg h9, if_neg h10, if_neg h11,
    if_neg h12, if_neg h13, if_neg h14, if_neg h15, if_neg h16, if_neg h17,
    if_neg h18, if_neg h19, if_pos hA]
  simp only [Context.mkIdentifierOrKeyword, readIdentifierAux_eq]
  rfl

/-- Witness for C6: the identifier run opened by `c` on input `classify`, one
keyword hit, and one non-keyword miss. -/
theorem claim_C6_witness :
    (∃ sp ctx1, Context.read ⟨'c' :: ("lassify").data, Span.default, false⟩ =
      .ok (some ⟨keywordLexeme ⟨'c' :: (("lassify").data).takeWhile isAlphanum⟩, sp⟩,
        ctx1) ∧
      ctx1.source = (("lassify").data).dropWhile isAlphanum) ∧
    keywordLexeme "while" = Lexeme.kwWhile ∧
    keywordLexeme "classify" = .identifier "classify" :=
  ⟨claim_C6.1 ⟨'c' :: ("lassify").data, Span.default, false⟩ 'c' ("lassify").data
      rfl rfl (by decide),
   claim_C6.2.1 ("while", .kwWhile) (by decide),
   claim_C6.2.2.1 "classify" (by decide)⟩

/-- C7: a `/` immediately followed by a second `/` consumes the rest of the
physical line (through and including the terminating newline, if any)
verbatim into a `Comment` payload; a `/` not followed by `/` emits a single
`Slash`; `// hi\nx` scans to `Comment(" hi\n")` (with a multi-line span
covering the newline) then `Identifier("x")`. -/
theorem claim_C7 :
    (∀ (ctx : Context) (rest : List Char), ctx.eofGenerated = false →
      ctx.source = '/' :: '/' :: rest →
      ∃ sp ctx1, ctx.read = .ok (some ⟨.comment ⟨rest.takeWhile (fun x => x != '\n') ++
          (rest.dropWhile (fun x => x != '\n')).take 1⟩, sp⟩, ctx1) ∧
        ctx1.source = (rest.dropWhile (fun x => x != '\n')).drop 1) ∧
    (∀ (ctx : Context) (rest : List Char), ctx.eofGenerated = false →
      ctx.source = '/' :: rest → rest.head? ≠ some '/' →
      ∃ sp ctx1, ctx.read = .ok (some ⟨.slash, sp⟩, ctx1) ∧ ctx1.source = rest) ∧
    scan "// hi\nx" = .ok [⟨.comment " hi\n", ⟨1, 0, 2, 0⟩⟩,
      ⟨.identifier "x", ⟨2, 0, 2, 1⟩⟩, ⟨.eof, ⟨2, 1, 2, 1⟩⟩] ∧
    Span.isMultiLine ⟨1, 0, 2, 0⟩ = true := by
  refine ⟨?_, ?_, rfl, rfl⟩
  · intro ctx rest hf hs
    obtain ⟨src, sp, flag⟩ := ctx
    simp only at hf hs
    subst hf
    subst hs
    have hstep : Context.read ⟨'/' :: '/' :: rest, sp, false⟩ =
        .ok (Context.mkComment ⟨rest, (sp.advance '/').advance '/', false⟩) := rfl
    refine ⟨((rest.takeWhile (fun x => x != '\n') ++
        (rest.dropWhile (fun x => x != '\n')).take 1).foldl Span.advance
        ((sp.advance '/').advance '/')).complete.1,
      ⟨(rest.dropWhile (fun x => x != '\n')).drop 1,
        ((rest.takeWhile (fun x => x != '\n') ++
          (rest.dropWhile (fun x => x != '\n')).take 1).foldl Span.advance
          ((sp.advance '/').advance '/')).complete.2, false⟩, ?_, rfl⟩
    rw [hstep]
    simp only [Context.mkComment, readLineAux_eq, List.nil_append]
  · intro ctx rest hf hs hh
    obtain ⟨src, sp, flag⟩ := ctx
    simp only at hf hs
    subst hf
    subst hs
    rcases rest with _ | ⟨d, rest2⟩
    · exact ⟨(sp.advance '/').complete.1, ⟨[], (sp.advance '/').complete.2, false⟩,
        rfl, rfl⟩
    · have hd : ¬ ('/' = d) := by
        intro h
        subst h
        exact hh rfl
      have hstep : Context.read ⟨'/' :: d :: rest2, sp, false⟩ =
          .ok (Context.mkSlashOrComment ⟨d :: rest2, sp.advance '/', false⟩) := rfl
      refine ⟨(sp.advance '/').complete.1,
        ⟨d :: rest2, (sp.advance '/').complete.2, false⟩, ?_, rfl⟩
      rw [hstep]
      simp only [Context.mkSlashOrComment, Context.readCharIf, if_neg hd]
      rfl

/-- Witness for C7: a comment covering the whole remaining line, and a lone
slash before a non-slash character. -/
theorem claim_C7_witness :
    (∃ sp ctx1, Context.read ⟨['/', '/', 'h', '\n', 'x'], Span.default, false⟩ =
      .ok (some ⟨.comment ⟨(['h', '\n', 'x'].takeWhile (fun x => x != '\n')) ++
          ((['h', '\n', 'x'].dropWhile (fun x => x != '\n')).take 1)⟩, sp⟩, ctx1) ∧
      ctx1.source = (['h', '\n', 'x'].dropWhile (fun x => x != '\n')).drop 1) ∧
    (∃ sp ctx1, Context.read ⟨['/', 'x'], Span.default, false⟩ =
      .ok (some ⟨.slash, sp⟩, ctx1) ∧ ctx1.source = ['x']) :=
  ⟨claim_C7.1 ⟨['/', '/', 'h', '\n', 'x'], Span.default, false⟩ ['h', '\n', 'x'] rfl rfl,
   claim_C7.2.1 ⟨['/', 'x'], Span.default, false⟩ ['x'] rfl rfl (by decide)⟩

/-- C8: scanning terminates for every input — any fuel beyond the sufficient
bound gives the same result, the successful token list ends in `Eof`, and
the number of non-`Eof` tokens is at most the number of input characters. -/
theorem claim_C8 :
    (∀ (s : String) (extra : Nat),
      scanFuel (s.data.length + 2 + extra) (Context.new s) = scan s) ∧
    (∀ (s : String) (ts : List Token), scan s = .ok ts →
      (ts.map Token.lexeme).getLast? = some Lexeme.eof ∧
      ts.countP (fun t => !(t.lexeme == Lexeme.eof)) ≤ s.data.length) := by
  constructor
  · intro s extra
    exact scanFuel_congr (s.data.length + 2 + extra) (s.data.length + 2) s.data (1, 0)
      (by omega) (le_refl _)
  · intro s ts h
    have hchain := scan_ok_tokChain s ts h
    exact ⟨tokChain_last_eof hchain, tokChain_non_eof_bound hchain⟩

/-- Witness for C8 at the one-character input `+` with five units of extra
fuel. -/
theorem claim_C8_witness :
    scanFuel ("+".data.length + 2 + 5) (Context.new "+") = scan "+" ∧
    ((([⟨.plus, ⟨1, 0, 1, 1⟩⟩, ⟨.eof, ⟨1, 1, 1, 1⟩⟩] : List Token).map
        Token.lexeme).getLast? = some Lexeme.eof ∧
      ([⟨.plus, ⟨1, 0, 1, 1⟩⟩, ⟨.eof, ⟨1, 1, 1, 1⟩⟩] : List Token).countP
        (fun t => !(t.lexeme == Lexeme.eof)) ≤ "+".data.length) :=
  ⟨claim_C8.1 "+" 5,
   claim_C8.2 "+" [⟨.plus, ⟨1, 0, 1, 1⟩⟩, ⟨.eof, ⟨1, 1, 1, 1⟩⟩] rfl⟩

/-- C9: for each of the ten single-character punctuators, the span measured
at the moment the token is constructed is exactly one character wide (one
line, end column minus start column equal to one), so the internal
assertion's failure branch is unreachable. -/
theorem claim_C9 :
    ∀ (sp : Span) (p : Pos) (c : Char) (rest : List Char), sp = mkSpan p p →
      c ∈ ['(', ')', '\x7b', '\x7d', ',', '.', '+', '-', ';', '*'] →
      ∃ t ctx1, Context.read ⟨c :: rest, sp, false⟩ = .ok (some t, ctx1) ∧
        t.span = sp.advance c ∧ t.span.isOneChar = true := by
  intro sp p c rest hsp hmem
  subst hsp
  fin_cases hmem <;>
    refine ⟨_, _, rfl, rfl, ?_⟩ <;>
    (simp [Context.updateSpan, Span.complete, Span.advance, Span.incrCol,
      Span.incrColN, Span.incrLine, mkSpan, Span.isOneChar, Span.isNChars,
      Span.isOneLine]
     try omega)

/-- Witness for C9 at a left parenthesis from the default armed span. -/
theorem claim_C9_witness :
    ∃ t ctx1, Context.read ⟨'(' :: [], Span.default, false⟩ = .ok (some t, ctx1) ∧
      t.span = Span.default.advance '(' ∧ t.span.isOneChar = true :=
  claim_C9 Span.default (1, 0) '(' [] rfl (by decide)

theorem foldl_advancePos_fst_ws (l : List Char)
    (hl : ∀ x ∈ l, isWhitespace x = true) :
    ∀ p : Pos, (l.foldl advancePos p).1 = p.1 := by
  induction l with
  | nil =>
    intro p
    rfl
  | cons c cs ih =>
    intro p
    have hc := ws_ne_newline c (hl c (by simp))
    have hrec := ih (fun x hx => hl x (by simp [hx])) (advancePos p c)
    rw [List.foldl_cons, hrec]
    simp [advancePos, hc]

/-- C10: every whitespace token has a one-line span and a payload containing
no newline — the coalesced run keeps only space, tab and carriage return and
stops before any newline; a carriage return followed by a line feed becomes
`Whitespace("\r")` followed by a separate `NewLine` token. -/
theorem claim_C10 :
    (∀ (sp : Span) (p : Pos) (w : Char) (rest : List Char), sp = mkSpan p p →
      isWhitespace w = true →
      ∃ ctx1, Context.read ⟨w :: rest, sp, false⟩ =
        .ok (some ⟨.whitespace ⟨w :: rest.takeWhile isWhitespace⟩,
          mkSpan p ((w :: rest.takeWhile isWhitespace).foldl advancePos p)⟩, ctx1) ∧
        ctx1.source = rest.dropWhile isWhitespace ∧
        (mkSpan p ((w :: rest.takeWhile isWhitespace).foldl advancePos p)).isOneLine
          = true ∧
        '\n' ∉ (w :: rest.takeWhile isWhitespace)) ∧
    scan "\r\n" = .ok [⟨.whitespace "\r", ⟨1, 0, 1, 1⟩⟩, ⟨.newLine, ⟨1, 1, 2, 0⟩⟩,
      ⟨.eof, ⟨2, 0, 2, 0⟩⟩] := by
  refine ⟨?_, rfl⟩
  intro sp p w rest hsp hw
  subst hsp
  have hall : ∀ x ∈ w :: rest.takeWhile isWhitespace, isWhitespace x = true := by
    intro x hx
    rcases List.mem_cons.mp hx with rfl | hx2
    · exact hw
    · exact List.mem_takeWhile_imp hx2
  have hline : ((w :: rest.takeWhile isWhitespace).foldl advancePos p).1 = p.1 :=
    foldl_advancePos_fst_ws _ hall p
  have hnl : '\n' ∉ (w :: rest.takeWhile isWhitespace) := by
    intro hmem
    exact absurd (hall '\n' hmem) (by decide)
  have honeline :
      (mkSpan p ((w :: rest.takeWhile isWhitespace).foldl advancePos p)).isOneLine
        = true := by
    simp [Span.isOneLine, mkSpan]
    exact hline.symm
  refine ⟨⟨rest.dropWhile isWhitespace,
    mkSpan ((w :: rest.takeWhile isWhitespace).foldl advancePos p)
      ((w :: rest.takeWhile isWhitespace).foldl advancePos p), false⟩,
    ?_, rfl, honeline, hnl⟩
  rcases isWhitespace_cases w hw with rfl | rfl | rfl
  · have hstep : Context.read ⟨' ' :: rest, mkSpan p p, false⟩ =
        .ok (Context.mkWhitespace ⟨rest, (mkSpan p p).advance ' ', false⟩ ' ') := rfl
    rw [hstep, Span.advance_mkSpan]
    simp only [Context.mkWhitespace, readWsAux_eq, Span.foldl_advance_mkSpan]
    rfl
  · have hstep : Context.read ⟨'\t' :: rest, mkSpan p p, false⟩ =
        .ok (Context.mkWhitespace ⟨rest, (mkSpan p p).advance '\t', false⟩ '\t') := rfl
    rw [hstep, Span.advance_mkSpan]
    simp only [Context.mkWhitespace, readWsAux_eq, Span.foldl_advance_mkSpan]
    rfl
  · have hstep : Context.read ⟨'\r' :: rest, mkSpan p p, false⟩ =
        .ok (Context.mkWhitespace ⟨rest, (mkSpan p p).advance '\r', false⟩ '\r') := rfl
    rw [hstep, Span.advance_mkSpan]
    simp only [Context.mkWhitespace, readWsAux_eq, Span.foldl_advance_mkSpan]
    rfl

/-- Witness for C10 at a tab-then-newline input from the default armed
span. -/
theorem claim_C10_witness :
    ∃ ctx1, Context.read ⟨'\t' :: ['\n'], Span.default, false⟩ =
      .ok (some ⟨.whitespace ⟨'\t' :: (['\n'].takeWhile isWhitespace)⟩,
        mkSpan (1, 0) (('\t' :: (['\n'].takeWhile isWhitespace)).foldl advancePos
          (1, 0))⟩, ctx1) ∧
      ctx1.source = ['\n'].dropWhile isWhitespace ∧
      (mkSpan (1, 0) (('\t' :: (['\n'].takeWhile isWhitespace)).foldl advancePos
        (1, 0))).isOneLine = true ∧
      '\n' ∉ ('\t' :: (['\n'].takeWhile isWhitespace)) :=
  claim_C10.1 Span.default (1, 0) '\t' ['\n'] rfl (by decide)

end LoxRs
